import Mathlib

set_option maxRecDepth 8192

/-! Shallow embedding of the two SHA-1 implementations of this repository
(`src/sha1.js`, iterative/generator style, and `src/unnamed/part_000`,
recursive list style), together with specification-level definitions and
theorems relating the code to its specification.

Modelling conventions:
* The JS numbers reaching the functions modelled here always hold
  nonnegative integers, so they are embedded as `Nat`, with 32-bit
  wraparound written explicitly (`uint32`, i.e. `% 2 ^ 32`).  JS bitwise
  operators (`^`, `&`, `|`, `~`, `<<`, `>>>`) work on signed int32
  intermediates; those intermediates are represented here by their
  unsigned 32-bit values, which is value-faithful because every such
  result is immediately normalised with `uint32` in the source.
* `throw new Error(...)` is embedded as `Except Err`, with one `Err`
  constructor per error family of the source.
* JS generators (`sha1.js`) are embedded eagerly as list producers; for
  these terminating, effect-free streams the eager and lazy readings
  produce the same values and the same first error.
* A JS string is a sequence of UTF-16 code units and `charCodeAt` returns
  the code-unit value, so strings are modelled as `List Nat` of code
  units.
* Recursions that JS performs on shrinking numbers or list slices are
  given a fuel argument equal to an upper bound on the recursion depth so
  that the Lean definitions are structurally recursive and computable by
  kernel reduction; each such site notes why the fuel never runs out.
-/

/-- The error values thrown by the source, one constructor per `throw` family. -/
inductive Err where
  | unsupportedInputType (typeName : String)
  | incompleteBlock
  | incompleteWord
  | negativeLength
  | notUint32 (v : Nat)
  | invalidRoundIndex (t : Int)
  | invalidShift (times : Nat)
  | incorrectBlockSize (n : Nat)
  | invalidBlockSize (n : Nat)
  | streamSizeNotMultiple
  deriving DecidableEq

/-- Both files, line 1: `const blockSizeBytes = 64`. -/
def blockSizeBytes : Nat := 64

/-- Both files, line 2: `const wordSizeBytes = 4`. -/
def wordSizeBytes : Nat := 4

/-- Both files: `isUint32(x) { return x >= 0 && x <= 0xffffffff; }`
(the `x >= 0` conjunct is vacuous for `Nat`). -/
def isUint32 (x : Nat) : Bool := decide (x ≤ 0xffffffff)

/-- Both files: `checkUint32(value)`, throwing `"not uint32: value"`. -/
def checkUint32 (value : Nat) : Except Err Unit :=
  if isUint32 value then .ok () else .error (.notUint32 value)

/-- Both files' `uint32`: reduction modulo `2 ^ 32`.  `sha1.js` computes
`v % (0xffffffff + 1)` after lifting negatives by `0xffffffff + 1`;
`part_000` computes a floor-division modulo.  On the nonnegative integers
that reach this function both equal `v % 2 ^ 32`. -/
def uint32 (v : Nat) : Nat := v % (0xffffffff + 1)

/-- Both files' `ROTL(times, value)` (lines 176-184 / 177-185).  The JS
`times < 0` guard is vacuous for `Nat`.  JS `>>>` masks its shift count to
five bits; the one reachable case where that matters (`times = 0`, count
`32 & 31 = 0`, giving `value` itself) produces the same result as the
unmasked `value >>> 32 = 0` used here, because the result is `|||`-ed with
`value <<< 0 = value` anyway. -/
def ROTL (times : Nat) (value : Nat) : Except Err Nat :=
  if ¬ isUint32 value then .error (.notUint32 value)
  else if 32 ≤ times then .error (.invalidShift times)
  else .ok (uint32 (uint32 (value <<< times) ||| (value >>> (32 - times))))

/-- Both files' logical function `f(t, B, C, D)` (lines 154-164 / 155-165).
`~B` applied to a 32-bit value is `B ^^^ 0xffffffff`. -/
def f (t : Int) (B C D : Nat) : Except Err Nat := do
  checkUint32 B
  checkUint32 C
  checkUint32 D
  if t < 0 ∨ 79 < t then .error (.invalidRoundIndex t)
  else if t < 20 then .ok (uint32 ((B &&& C) ||| ((B ^^^ 0xffffffff) &&& D)))
  else if t < 40 then .ok (uint32 ((B ^^^ C) ^^^ D))
  else if t < 60 then .ok (uint32 (((B &&& C) ||| (B &&& D)) ||| (C &&& D)))
  else .ok (uint32 ((B ^^^ C) ^^^ D))

/-- Both files' round constants `K(t)` (lines 167-173 / 168-174). -/
def K (t : Int) : Except Err Nat :=
  if t < 0 ∨ 79 < t then .error (.invalidRoundIndex t)
  else if t < 20 then .ok 0x5a827999
  else if t < 40 then .ok 0x6ed9eba1
  else if t < 60 then .ok 0x8f1bbcdc
  else .ok 0xca62c1d6

/-- A JS value handed to `sha1`: either a string (a list of UTF-16 code
units) or a number (the non-string case exercised by the spec). -/
inductive JSInput where
  | str (codeUnits : List Nat)
  | num (value : Int)
  deriving DecidableEq

/-- Both files' `bytes(input)` (lines 18-26 / 18-23): for a string, the
list of `charCodeAt` values of its code units (`sha1.js` phrases this as
a generator over `split("")`, `part_000` as `split("").map`; both produce
exactly the code-unit list, with no range restriction); any other type is
rejected with `unsupported input type`. -/
def bytes : JSInput → Except Err (List Nat)
  | .str s => .ok s
  | .num _ => .error (.unsupportedInputType "number")

/-- Fuel-indexed body of `distribute`. -/
def distributeAux : Nat → Nat → List Nat
  | 0, _ => []
  | fuel + 1, n => if n = 0 then [] else n % 256 :: distributeAux fuel (n / 256)

/-- Both files' `distribute(length)` (lines 86-90 / 72-76): base-256
digits of `length`, least significant first.  The recursion descends from
`n` to `n / 256 < n`, so `fuel = n` never runs out.  The `length < 0`
guard (error `negativeLength`) is vacuous for `Nat`. -/
def distribute (n : Nat) : List Nat := distributeAux n n

/-- `part_000` `addEof(message)` (lines 42-45); in `sha1.js` this is the
`yield 128` of `padMessage`. -/
def addEof (message : List Nat) : List Nat := message ++ [128]

/-- Both files' `addZeros` (lines 57-71 / 47-59).
`Math.ceil((length + 9) / 64)` on naturals is `(length + 9 + 63) / 64`. -/
def addZeros (stream : List Nat) (length : Nat) : List Nat :=
  let n := (length + 9 + 63) / blockSizeBytes
  let z := blockSizeBytes * n - 9 - length
  stream ++ List.replicate z 0

/-- Both files' `addLength` (lines 73-82 / 61-68): the first eight base-256
digits (zero-padded) of `length * 8`, least significant first, reversed. -/
def addLength (stream : List Nat) (length : Nat) : List Nat :=
  stream ++ ((distribute (length * 8) ++ List.replicate 8 0).take 8).reverse

/-- Both files' `padMessage` (lines 45-55 / 38-40): message, `0x80`
marker, zero fill, 64-bit big-endian bit length.  (`sha1.js` writes this
as one generator that counts the message length while yielding; the
produced byte list is this same concatenation.) -/
def padMessage (message : List Nat) : List Nat :=
  addLength (addZeros (addEof message) message.length) message.length

/-- Both files' `words(stream)` (lines 93-102 / 79-88): group bytes into
words of four, each word folded most-significant-byte first via
`reduce((s, byte) => s * 256 + byte, 0)`; fewer than four remaining bytes
is an `incomplete word` error. -/
def words : List Nat → Except Err (List Nat)
  | [] => .ok []
  | b0 :: b1 :: b2 :: b3 :: rest => do
      let ws ← words rest
      .ok (((((0 * 256 + b0) * 256 + b1) * 256 + b2) * 256 + b3) :: ws)
  | _ => .error .incompleteWord

/-- Fuel-indexed body of `part_000`'s `blocks`.  Each step consumes 64
list elements, so `fuel = stream.length` never runs out (the fuel-0
non-empty case is unreachable from `blocksRec`). -/
def blocksRecAux : Nat → List Nat → Except Err (List (List Nat))
  | _, [] => .ok []
  | 0, _ :: _ => .error .incompleteBlock
  | fuel + 1, b :: rest =>
      if (b :: rest).length < blockSizeBytes then .error .incompleteBlock
      else do
        let w ← words ((b :: rest).take blockSizeBytes)
        let bs ← blocksRecAux fuel ((b :: rest).drop blockSizeBytes)
        .ok (w :: bs)

/-- `part_000` `blocks(stream)` (lines 26-34): recursive 64-byte slicing. -/
def blocksRec (stream : List Nat) : Except Err (List (List Nat)) :=
  blocksRecAux stream.length stream

/-- Buffer-explicit body of `sha1.js`'s generator `blocks`. -/
def blocksIterAux (buf : List Nat) : List Nat → Except Err (List (List Nat))
  | [] => if buf.length ≠ 0 then .error .incompleteBlock else .ok []
  | byte :: rest =>
      let buf2 := buf ++ [byte]
      if buf2.length = blockSizeBytes then do
        let w ← words buf2
        let bs ← blocksIterAux [] rest
        .ok (w :: bs)
      else blocksIterAux buf2 rest

/-- `src/sha1.js` `blocks(stream)` (lines 29-41): accumulate a 64-byte
buffer, emit `words(buf)` when it fills, fail on a non-empty tail. -/
def blocksIter (stream : List Nat) : Except Err (List (List Nat)) :=
  blocksIterAux [] stream

/-- One iteration of the message-schedule loop shared verbatim by both
files' `digest` (`sha1.js` 112-115 / `part_000` 103-106), at `t = i + 16`:
append `W[t] = ROTL(1, uint32(W[t-3] ^ W[t-8] ^ W[t-14] ^ W[t-16]))`
(the JS `^` chain is left-associated) and check it. -/
def scheduleStep (W : List Nat) (i : Nat) : Except Err (List Nat) := do
  let t := i + 16
  let x ← ROTL 1 (uint32 (((W.getD (t - 3) 0 ^^^ W.getD (t - 8) 0) ^^^
    W.getD (t - 14) 0) ^^^ W.getD (t - 16) 0))
  checkUint32 x
  .ok (W ++ [x])

/-- The message-schedule construction of both files' `digest`
(`sha1.js` 108-115 / `part_000` 99-106): start from the 16 block words
and run `scheduleStep` for `t = 16..79`. -/
def buildW (block : List Nat) : Except Err (List Nat) :=
  (List.range 64).foldlM scheduleStep block

/-- One iteration of the 80-round loop shared verbatim by both files'
`digest` (`sha1.js` 119-127 / `part_000` 110-118):
`T = uint32(ROTL(5,a) + f(t,b,c,d) + e + K(t) + W[t])`, then the pipeline
shift `e=d; d=c; c=ROTL(30,b); b=a; a=T` and the `checkUint32(c)`. -/
def roundStep (W : List Nat) (st : Nat × Nat × Nat × Nat × Nat) (t : Nat) :
    Except Err (Nat × Nat × Nat × Nat × Nat) := do
  let (a, b, c, d, e) := st
  let r ← ROTL 5 a
  let ft ← f t b c d
  let kt ← K t
  let T := uint32 (r + ft + e + kt + W.getD t 0)
  let c2 ← ROTL 30 b
  checkUint32 c2
  .ok (T, a, c2, c, d)

/-- Both files' `addVec(xs, ys)` (lines 131-136 / 123-128): elementwise
wrapping sum, recursing on `xs`.  The `(_ :: _, [])` case, where JS would
compute `uint32(x + undefined) = NaN`, is unreachable at both call sites
(the arguments always have equal length 5). -/
def addVec : List Nat → List Nat → List Nat
  | [], _ => []
  | x :: restx, y :: resty => uint32 (x + y) :: addVec restx resty
  | _ :: _, [] => []

/-- Lines 108-128 of `src/sha1.js` = lines 99-120 of `part_000` (the text
is character-identical in the two files, so it is embedded once): schedule
expansion, destructuring `[a,b,c,d,e] = sum`, the 80 rounds, and the
feed-forward `addVec(sum, [a,b,c,d,e])`. -/
def compressRounds (block : List Nat) (sum : List Nat) : Except Err (List Nat) := do
  let W ← buildW block
  let st ← (List.range 80).foldlM (roundStep W)
      (sum.getD 0 0, sum.getD 1 0, sum.getD 2 0, sum.getD 3 0, sum.getD 4 0)
  let (a, b, c, d, e) := st
  .ok (addVec sum [a, b, c, d, e])

/-- `src/sha1.js` `digest(block, sum)` (lines 104-129): the single-block
compression step, guarded by the block-size check. -/
def digestBlock (block : List Nat) (sum : List Nat) : Except Err (List Nat) :=
  if block.length ≠ blockSizeBytes / wordSizeBytes then
    .error (.incorrectBlockSize block.length)
  else compressRounds block sum

/-- `part_000` line 97: `block.forEach(checkUint32)`. -/
def checkList : List Nat → Except Err Unit
  | [] => .ok ()
  | x :: xs => do
      checkUint32 x
      checkList xs

/-- `part_000` `digest(blocks, sum)` (lines 90-121): recursion over the
block list, with the per-word `checkUint32` sweep of line 97. -/
def digestRec : List (List Nat) → List Nat → Except Err (List Nat)
  | [], sum => .ok sum
  | block :: rest, sum =>
      if block.length ≠ 16 then .error (.invalidBlockSize block.length)
      else do
        checkList block
        let h ← compressRounds block sum
        digestRec rest h

/-- One lowercase hexadecimal digit, as produced by JS `toString(16)`. -/
def hexChar (d : Nat) : Char :=
  if d < 10 then Char.ofNat (48 + d) else Char.ofNat (87 + d)

/-- Fuel-indexed digit accumulation for `toHex`; dividing by 16 descends
below any starting fuel `n`. -/
def toHexAux : Nat → Nat → List Char → List Char
  | 0, _, acc => acc
  | fuel + 1, n, acc =>
      if n = 0 then acc else toHexAux fuel (n / 16) (hexChar (n % 16) :: acc)

/-- `n.toString(16)` as used on line 14 of both files: lowercase
hexadecimal digits of `n`, without left zero-padding, `"0"` for zero. -/
def toHex (n : Nat) : String :=
  if n = 0 then "0" else String.mk (toHexAux n n [])

/-- The five initial state words (line 10 / line 13). -/
def initHash : List Nat :=
  [0x67452301, 0xefcdab89, 0x98badcfe, 0x10325476, 0xc3d2e1f0]

/-- `src/sha1.js` `sha1(message)` (lines 4-15): pad, split into blocks,
fold `digest` over the blocks starting from `initHash`, render in hex. -/
def sha1Iter (message : JSInput) : Except Err (List String) := do
  let bs ← bytes message
  let stream := padMessage bs
  let bls ← blocksIter stream
  let hash ← bls.foldlM (fun h block => digestBlock block h) initHash
  .ok (hash.map toHex)

/-- `part_000` `sha1(message)` (lines 4-15): same pipeline, with the
stream-length guard of lines 6-8 and the recursive `digest`. -/
def sha1Rec (message : JSInput) : Except Err (List String) := do
  let bs ← bytes message
  let stream := padMessage bs
  if stream.length % blockSizeBytes ≠ 0 then .error .streamSizeNotMultiple
  else do
    let bls ← blocksRec stream
    let hash ← digestRec bls initHash
    .ok (hash.map toHex)

instance {ε α : Type} [DecidableEq ε] [DecidableEq α] : DecidableEq (Except ε α)
  | .ok a, .ok b =>
    if h : a = b then .isTrue (by rw [h]) else .isFalse (fun hh => h (by cases hh; rfl))
  | .error a, .error b =>
    if h : a = b then .isTrue (by rw [h]) else .isFalse (fun hh => h (by cases hh; rfl))
  | .ok _, .error _ => .isFalse (fun hh => by cases hh)
  | .error _, .ok _ => .isFalse (fun hh => by cases hh)

/-- C1: for the input `""` (no code units) the top-level `sha1` of both
files returns the five words rendered in lowercase hexadecimal which,
space-joined, read `"da39a3ee 5e6b4b0d 3255bfef 95601890 afd80709"`; for
the input `"abc"` (code units `[97, 98, 99]`) they read
`"a9993e36 4706816a ba3e2571 7850c26c 9cd0d89d"`. -/
theorem c1_sha1_test_vectors :
    (sha1Iter (JSInput.str [])).map (fun ws => " ".intercalate ws) =
      .ok "da39a3ee 5e6b4b0d 3255bfef 95601890 afd80709" ∧
    (sha1Rec (JSInput.str [])).map (fun ws => " ".intercalate ws) =
      .ok "da39a3ee 5e6b4b0d 3255bfef 95601890 afd80709" ∧
    (sha1Iter (JSInput.str [97, 98, 99])).map (fun ws => " ".intercalate ws) =
      .ok "a9993e36 4706816a ba3e2571 7850c26c 9cd0d89d" ∧
    (sha1Rec (JSInput.str [97, 98, 99])).map (fun ws => " ".intercalate ws) =
      .ok "a9993e36 4706816a ba3e2571 7850c26c 9cd0d89d" := by
  refine ⟨by decide, by decide, by decide, by decide⟩

/-- C5 counterexample: on the one-character string whose code unit is
`256` (U+0100), the iterative implementation returns a digest while the
recursive implementation throws `not uint32`, so the two implementations
are not equivalent on every string input. -/
theorem c5_counterexample :
    sha1Iter (JSInput.str [256]) ≠ sha1Rec (JSInput.str [256]) ∧
    (sha1Iter (JSInput.str [256])).isOk = true ∧
    sha1Rec (JSInput.str [256]) = .error (.notUint32 4303355904) := by
  refine ⟨by decide, by decide, by decide⟩

/-- C6 counterexample: at `r = 0` the round trip `ROTL(32 - r, ROTL(r, w))`
does not return `w`: `ROTL(0, 5)` yields `5`, and `ROTL(32, 5)` throws
`invalid left shift amount: 32` instead of rotating. -/
theorem c6_counterexample :
    (ROTL 0 5).bind (fun v => ROTL (32 - 0) v) ≠ .ok 5 ∧
    (ROTL 0 5).bind (fun v => ROTL (32 - 0) v) = .error (.invalidShift 32) := by
  refine ⟨by decide, by decide⟩

/-- C7 counterexample: on the string `"aĀ"` (code units `[97, 256]`) the
byte source emits the out-of-range byte value `256` without any error, and
both implementations go on to compute a digest from it — out-of-range
byte values are not rejected. -/
theorem c7_counterexample :
    bytes (JSInput.str [97, 256]) = .ok [97, 256] ∧
    (sha1Iter (JSInput.str [97, 256])).isOk = true ∧
    (sha1Rec (JSInput.str [97, 256])).isOk = true := by
  refine ⟨by decide, by decide, by decide⟩

/-- C7 amended: the byte source performs no range check at all — for every
string it returns the full code-unit list unchanged, including values
outside `[0, 255]` — and a digest can be (and on the witness inputs is)
computed from such out-of-range byte values. -/
theorem c7_amended_no_rejection :
    (∀ s : List Nat, bytes (JSInput.str s) = .ok s) ∧
    (sha1Iter (JSInput.str [97, 256])).isOk = true ∧
    (sha1Rec (JSInput.str [97, 256])).isOk = true := by
  refine ⟨fun s => rfl, by decide, by decide⟩

/-- `toHexAux` adds at most one character per base-16 digit of `n`. -/
theorem toHexAux_length (fuel : Nat) :
    ∀ (n k : Nat) (acc : List Char), n < 16 ^ k →
      (toHexAux fuel n acc).length ≤ k + acc.length := by
  induction fuel with
  | zero => intro n k acc _; simp [toHexAux]
  | succ fuel ih =>
    intro n k acc h
    by_cases hn : n = 0
    · simp [toHexAux, hn]
    · rw [toHexAux, if_neg hn]
      obtain ⟨k', rfl⟩ : ∃ k', k = k' + 1 := by
        refine ⟨k - 1, ?_⟩
        have : k ≠ 0 := by rintro rfl; simp at h; omega
        omega
      have hdiv : n / 16 < 16 ^ k' := by
        apply Nat.div_lt_of_lt_mul
        rw [mul_comm, ← pow_succ]
        exact h
      have := ih (n / 16) k' (hexChar (n % 16) :: acc) hdiv
      simp only [List.length_cons] at this
      omega

/-- C10: the final rendering (`n.toString(16)`, line 14 of both files)
drops leading zero nibbles: every word value below `2 ^ 28` is rendered
with fewer than 8 hexadecimal digits, so the output is not always five
8-digit groups. -/
theorem c10_hex_no_padding (w : Nat) (h : w < 2 ^ 28) : (toHex w).length < 8 := by
  by_cases h0 : w = 0
  · rw [toHex, if_pos h0]
    decide
  · rw [toHex, if_neg h0]
    have h16 : w < 16 ^ 7 := by
      have : (16 : Nat) ^ 7 = 2 ^ 28 := by norm_num
      omega
    have := toHexAux_length w w 7 [] h16
    simp only [List.length_nil] at this
    show (toHexAux w w []).length < 8
    omega

/-- C10 witness: the word `0` is below `2 ^ 28` and renders as the single
character `"0"`. -/
theorem c10_witness : (0 : Nat) < 2 ^ 28 ∧ (toHex 0).length < 8 :=
  ⟨by norm_num, c10_hex_no_padding 0 (by norm_num)⟩

/-- `ROTL` on a 32-bit value and a legal rotation amount succeeds and
computes the arithmetic form of a left rotation: the low `32 - r` bits
shifted up by `r`, plus the high `r` bits moved to the bottom. -/
theorem rotl_val (r v : Nat) (hv : v < 2 ^ 32) (hr : r ≤ 31) :
    ROTL r v = .ok ((v % 2 ^ (32 - r)) * 2 ^ r + v / 2 ^ (32 - r)) := by
  have h32 : (2 : Nat) ^ (32 - r) * 2 ^ r = 2 ^ 32 := by
    rw [← pow_add]
    congr 1
    omega
  have hmax : (0xffffffff + 1 : Nat) = 2 ^ 32 := by norm_num
  have hb : v / 2 ^ (32 - r) < 2 ^ r := by
    apply Nat.div_lt_of_lt_mul
    rw [h32]
    exact hv
  have ha : v % 2 ^ (32 - r) < 2 ^ (32 - r) := Nat.mod_lt _ (Nat.two_pow_pos _)
  have hlt : 2 ^ r * (v % 2 ^ (32 - r)) + v / 2 ^ (32 - r) < 2 ^ 32 := by
    have hkey : 2 ^ r * (v % 2 ^ (32 - r)) + 2 ^ r ≤ 2 ^ (32 - r) * 2 ^ r := by
      have h1 := Nat.mul_le_mul_left (2 ^ r)
        (show v % 2 ^ (32 - r) + 1 ≤ 2 ^ (32 - r) by omega)
      rw [Nat.mul_add, mul_one] at h1
      rw [mul_comm (2 ^ (32 - r)) (2 ^ r)]
      exact h1
    omega
  simp only [ROTL]
  rw [if_neg (by simp [isUint32]; omega), if_neg (by omega)]
  congr 1
  rw [Nat.shiftLeft_eq, Nat.shiftRight_eq_div_pow]
  show uint32 (uint32 (v * 2 ^ r) ||| v / 2 ^ (32 - r)) = _
  have e1 : uint32 (v * 2 ^ r) = (v % 2 ^ (32 - r)) * 2 ^ r := by
    rw [uint32, hmax, ← h32, Nat.mul_mod_mul_right]
  rw [e1, mul_comm (v % 2 ^ (32 - r)) (2 ^ r), ← Nat.mul_add_lt_is_or hb]
  rw [uint32, hmax, Nat.mod_eq_of_lt hlt, mul_comm (2 ^ r) (v % 2 ^ (32 - r))]

/-- C6 amended: the rotation round trip holds for rotation amounts
`r` in `[1, 31]` (at `r = 0` the second rotation, by 32, is rejected by
`ROTL`'s shift-amount guard instead). -/
theorem c6_rotl_roundtrip (w r : Nat) (hw : w < 2 ^ 32) (h1 : 1 ≤ r) (h2 : r ≤ 31) :
    (ROTL r w).bind (fun v => ROTL (32 - r) v) = .ok w := by
  have hq : (0 : Nat) < 2 ^ (32 - r) := Nat.two_pow_pos _
  have hp : (0 : Nat) < 2 ^ r := Nat.two_pow_pos _
  have h32 : (2 : Nat) ^ (32 - r) * 2 ^ r = 2 ^ 32 := by
    rw [← pow_add]
    congr 1
    omega
  have ha : w % 2 ^ (32 - r) < 2 ^ (32 - r) := Nat.mod_lt _ hq
  have hb : w / 2 ^ (32 - r) < 2 ^ r := by
    apply Nat.div_lt_of_lt_mul
    rw [h32]
    exact hw
  have hvlt : (w % 2 ^ (32 - r)) * 2 ^ r + w / 2 ^ (32 - r) < 2 ^ 32 := by
    have hkey : (w % 2 ^ (32 - r)) * 2 ^ r + 2 ^ r ≤ 2 ^ (32 - r) * 2 ^ r := by
      have h3 := Nat.mul_le_mul_right (2 ^ r)
        (show w % 2 ^ (32 - r) + 1 ≤ 2 ^ (32 - r) by omega)
      rw [Nat.add_mul, one_mul] at h3
      exact h3
    omega
  rw [rotl_val r w hw (by omega)]
  show ROTL (32 - r) _ = _
  rw [rotl_val (32 - r) _ hvlt (by omega)]
  have hrr : 32 - (32 - r) = r := by omega
  rw [hrr]
  congr 1
  have e1 : ((w % 2 ^ (32 - r)) * 2 ^ r + w / 2 ^ (32 - r)) % 2 ^ r = w / 2 ^ (32 - r) := by
    rw [mul_comm (w % 2 ^ (32 - r)) (2 ^ r), Nat.mul_add_mod]
    exact Nat.mod_eq_of_lt hb
  have e2 : ((w % 2 ^ (32 - r)) * 2 ^ r + w / 2 ^ (32 - r)) / 2 ^ r = w % 2 ^ (32 - r) := by
    rw [mul_comm (w % 2 ^ (32 - r)) (2 ^ r), Nat.mul_add_div hp, Nat.div_eq_of_lt hb]
    omega
  rw [e1, e2, mul_comm (w / 2 ^ (32 - r)) (2 ^ (32 - r))]
  exact Nat.div_add_mod w (2 ^ (32 - r))

/-- Specification-side definition (from the padding contract's words):
the 8-byte big-endian encoding of `n`, most significant byte first. -/
def beBytes8 (n : Nat) : List Nat :=
  (List.range 8).map (fun i => n / 256 ^ (7 - i) % 256)

/-- Specification-side definition (from the padding contract's words):
the zero-fill count `k = 64 * ceil((L + 9) / 64) - 9 - L`. -/
def padZeroCount (L : Nat) : Nat := 64 * ((L + 9 + 63) / 64) - 9 - L

/-- `distributeAux` with enough fuel produces exactly the base-256 digits:
reading position `j` (default 0 past the end) gives digit `n / 256^j % 256`. -/
theorem distributeAux_getD (fuel : Nat) :
    ∀ n j, n ≤ fuel → (distributeAux fuel n).getD j 0 = n / 256 ^ j % 256 := by
  induction fuel with
  | zero =>
    intro n j h
    have : n = 0 := by omega
    subst this
    simp [distributeAux]
  | succ fuel ih =>
    intro n j h
    by_cases hn : n = 0
    · subst hn
      simp [distributeAux]
    · rw [distributeAux, if_neg hn]
      cases j with
      | zero => simp
      | succ j =>
        have hle : n / 256 ≤ fuel := by
          have : n / 256 < n := Nat.div_lt_self (by omega) (by norm_num)
          omega
        rw [List.getD_cons_succ, ih (n / 256) j hle, Nat.div_div_eq_div_mul,
          ← pow_succ']

/-- Every digit emitted by `distributeAux` is below 256. -/
theorem distributeAux_mem_lt (fuel : Nat) :
    ∀ n x, x ∈ distributeAux fuel n → x < 256 := by
  induction fuel with
  | zero => intro n x hx; simp [distributeAux] at hx
  | succ fuel ih =>
    intro n x hx
    by_cases hn : n = 0
    · subst hn; simp [distributeAux] at hx
    · rw [distributeAux, if_neg hn] at hx
      rcases List.mem_cons.mp hx with h | h
      · subst h
        exact Nat.mod_lt _ (by norm_num)
      · exact ih _ _ h

/-- `distributeAux` never produces more digits than the value needs. -/
theorem distributeAux_lt_pow (fuel : Nat) :
    ∀ n, n ≤ fuel → n < 256 ^ (distributeAux fuel n).length := by
  induction fuel with
  | zero =>
    intro n h
    have : n = 0 := by omega
    subst this
    simp [distributeAux]
  | succ fuel ih =>
    intro n h
    by_cases hn : n = 0
    · subst hn; simp [distributeAux]
    · rw [distributeAux, if_neg hn]
      simp only [List.length_cons]
      have hle : n / 256 ≤ fuel := by
        have : n / 256 < n := Nat.div_lt_self (by omega) (by norm_num)
        omega
      have hih := ih (n / 256) hle
      have hpow : (256 : Nat) ^ ((distributeAux fuel (n / 256)).length + 1) =
          256 ^ (distributeAux fuel (n / 256)).length * 256 := pow_succ 256 _
      have hdm := Nat.div_add_mod n 256
      have hm : n % 256 < 256 := Nat.mod_lt _ (by norm_num)
      omega

/-- Digits of `n` padded with eight zeros: position `j < 8` reads
`n / 256^j % 256` whenever `n < 256 ^ 8`. -/
theorem distribute_pad_getD (n j : Nat) (hj : j < 8) :
    (distribute n ++ List.replicate 8 0).getD j 0 = n / 256 ^ j % 256 := by
  by_cases hd : j < (distribute n).length
  · rw [List.getD_append _ _ _ _ hd]
    exact distributeAux_getD n n j le_rfl
  · have hlen : (distribute n).length ≤ j := by omega
    have hlt : n < 256 ^ j := by
      have h1 : n < 256 ^ (distribute n).length := distributeAux_lt_pow n n le_rfl
      have h2 : (256 : Nat) ^ (distribute n).length ≤ 256 ^ j :=
        Nat.pow_le_pow_right (by norm_num) hlen
      omega
    have hz : n / 256 ^ j = 0 := Nat.div_eq_of_lt hlt
    rw [hz]
    have hj2 : j - (distribute n).length < 8 := by omega
    rw [List.getD_eq_getElem?_getD, List.getElem?_append_right hlen,
      List.getElem?_replicate]
    simp [hj2]

/-- The 8-byte tail appended by `addLength` is the big-endian encoding of
`length * 8` whenever that value fits in 64 bits. -/
theorem addLength_tail (n : Nat) :
    ((distribute n ++ List.replicate 8 0).take 8).reverse = beBytes8 n := by
  apply List.ext_getElem
  · simp [beBytes8]
  · intro i h1 h2
    have hi : i < 8 := by
      simp at h1
      omega
    have h7 : 7 - i < 8 := by omega
    have hd := distribute_pad_getD n (7 - i) h7
    have hlt : 7 - i < (distribute n ++ List.replicate 8 0).length := by
      simp
      omega
    rw [List.getD_eq_getElem _ _ hlt] at hd
    rw [List.getElem_reverse, List.getElem_take]
    simp only [beBytes8, List.getElem_map, List.getElem_range]
    rw [← hd]
    congr 1
    simp

/-- The padded stream laid out as the contract describes: message, the
`0x80` marker, the zero fill, and the 8-byte length tail (still in its
raw `take 8 ∘ reverse` form here). -/
theorem padMessage_eq (m : List Nat) :
    padMessage m = m ++ 128 :: (List.replicate (padZeroCount m.length) 0 ++
      ((distribute (m.length * 8) ++ List.replicate 8 0).take 8).reverse) := by
  simp [padMessage, addLength, addZeros, addEof, padZeroCount, blockSizeBytes]

/-- The zero count both makes the framed length a multiple of 64 and is
the least count doing so. -/
theorem padZeroCount_spec (L : Nat) :
    (L + 1 + padZeroCount L + 8) % 64 = 0 ∧
      ∀ k, k < padZeroCount L → (L + 1 + k + 8) % 64 ≠ 0 := by
  unfold padZeroCount
  constructor
  · omega
  · intro k hk
    omega

/-- The padded stream's length: framed length of the message. -/
theorem padMessage_length (m : List Nat) :
    (padMessage m).length = m.length + 1 + padZeroCount m.length + 8 := by
  rw [padMessage_eq]
  simp
  have h8 : ((distribute (m.length * 8) ++ List.replicate 8 0).take 8).length = 8 := by
    simp
  simp at h8
  omega

/-- The padded stream length is a positive multiple of 64. -/
theorem padMessage_length_mod (m : List Nat) :
    (padMessage m).length % 64 = 0 ∧ 0 < (padMessage m).length := by
  rw [padMessage_length]
  have h1 := (padZeroCount_spec m.length).1
  omega

/-- Every byte of the padded stream of a byte-valued message is a byte. -/
theorem padMessage_bytes_lt (m : List Nat) (hm : ∀ x ∈ m, x < 256) :
    ∀ x ∈ padMessage m, x < 256 := by
  intro x hx
  rw [padMessage_eq] at hx
  rcases List.mem_append.mp hx with h | h
  · exact hm x h
  · rcases List.mem_cons.mp h with h | h
    · omega
    · rcases List.mem_append.mp h with h | h
      · rw [List.eq_of_mem_replicate h]
        norm_num
      · have := List.mem_reverse.mp h
        have := List.mem_of_mem_take this
        rcases List.mem_append.mp this with h | h
        · exact distributeAux_mem_lt _ _ _ h
        · rw [List.eq_of_mem_replicate h]
          norm_num

/-- C6 witness: the round trip at `w = 5`, `r = 1`. -/
theorem c6_witness :
    (5 : Nat) < 2 ^ 32 ∧ (1 : Nat) ≤ 1 ∧ (1 : Nat) ≤ 31 ∧
      (ROTL 1 5).bind (fun v => ROTL (32 - 1) v) = .ok 5 :=
  ⟨by norm_num, le_refl 1, by norm_num,
    c6_rotl_roundtrip 5 1 (by norm_num) (le_refl 1) (by norm_num)⟩


/-- C3: the Padder produces exactly
`message ++ 0x80 ++ 0^k ++ (8-byte big-endian encoding of L*8)` with
`k = 64 * ceil((L+9)/64) - 9 - L`, the minimal zero count making
`L + 1 + k + 8` a multiple of 64; consequently the output length is a
nonzero multiple of 64 bytes. -/
theorem c3_padder_spec (m : List Nat) (_h : 8 * m.length < 2 ^ 64) :
    padMessage m = m ++ 128 :: (List.replicate (padZeroCount m.length) 0 ++
        beBytes8 (m.length * 8)) ∧
    (m.length + 1 + padZeroCount m.length + 8) % 64 = 0 ∧
    (∀ k, k < padZeroCount m.length → (m.length + 1 + k + 8) % 64 ≠ 0) ∧
    (padMessage m).length % 64 = 0 ∧ 0 < (padMessage m).length := by
  refine ⟨?_, (padZeroCount_spec m.length).1, (padZeroCount_spec m.length).2,
    (padMessage_length_mod m).1, (padMessage_length_mod m).2⟩
  rw [padMessage_eq, addLength_tail (m.length * 8)]

/-- C3 witness: the padding of the one-byte message `[97]`. -/
theorem c3_witness :
    8 * ([97] : List Nat).length < 2 ^ 64 ∧
    (padMessage [97] = [97] ++ 128 :: (List.replicate (padZeroCount ([97] : List Nat).length) 0 ++
        beBytes8 (([97] : List Nat).length * 8)) ∧
    (([97] : List Nat).length + 1 + padZeroCount ([97] : List Nat).length + 8) % 64 = 0 ∧
    (∀ k, k < padZeroCount ([97] : List Nat).length →
      (([97] : List Nat).length + 1 + k + 8) % 64 ≠ 0) ∧
    (padMessage [97]).length % 64 = 0 ∧ 0 < (padMessage [97]).length) :=
  ⟨by norm_num, c3_padder_spec [97] (by norm_num)⟩

/-- Specification-side definition (from the BlockParser contract's
words): word `j` of a chunk, four bytes, most significant byte first. -/
def chunkWord (chunk : List Nat) (j : Nat) : Nat :=
  chunk.getD (4 * j) 0 * 16777216 + chunk.getD (4 * j + 1) 0 * 65536 +
    chunk.getD (4 * j + 2) 0 * 256 + chunk.getD (4 * j + 3) 0

/-- Specification-side definition: all words of a 4-byte-aligned list. -/
def wordsSpec (s : List Nat) : List Nat :=
  (List.range (s.length / 4)).map (chunkWord s)

/-- Specification-side definition (from the BlockParser contract's
words): partition into consecutive 64-byte chunks, in order, none left
over, each chunk giving 16 big-endian words. -/
def parseSpec (s : List Nat) : List (List Nat) :=
  (List.range (s.length / 64)).map (fun i => wordsSpec ((s.drop (64 * i)).take 64))

/-- Reduction of the `Except` bind on a success value. -/
theorem except_bind_ok {ε α β : Type} (a : α) (g : α → Except ε β) :
    (Except.ok a >>= g : Except ε β) = g a := rfl

/-- Reduction of the `Except` bind on an error value. -/
theorem except_bind_err {ε α β : Type} (e : ε) (g : α → Except ε β) :
    (Except.error e >>= g : Except ε β) = Except.error e := rfl

/-- `words` on a 4-byte-aligned list succeeds and produces the
specification words. -/
theorem words_spec : ∀ s : List Nat, s.length % 4 = 0 → words s = .ok (wordsSpec s)
  | [], _ => by
      simp [words, wordsSpec]
  | [b0], h => by
      simp at h
  | [b0, b1], h => by
      simp at h
  | [b0, b1, b2], h => by
      simp at h
  | b0 :: b1 :: b2 :: b3 :: rest, h => by
      have hr : rest.length % 4 = 0 := by
        simp [List.length_cons] at h
        omega
      have ih := words_spec rest hr
      show (do
        let ws ← words rest
        Except.ok (((((0 * 256 + b0) * 256 + b1) * 256 + b2) * 256 + b3) :: ws)) = _
      rw [ih]
      show Except.ok _ = _
      congr 1
      have hlen : (b0 :: b1 :: b2 :: b3 :: rest).length / 4 = rest.length / 4 + 1 := by
        simp [List.length_cons]
        omega
      have hw : wordsSpec (b0 :: b1 :: b2 :: b3 :: rest) =
          chunkWord (b0 :: b1 :: b2 :: b3 :: rest) 0 ::
            (List.range (rest.length / 4)).map
              (chunkWord (b0 :: b1 :: b2 :: b3 :: rest) ∘ Nat.succ) := by
        rw [wordsSpec, hlen, List.range_succ_eq_map, List.map_cons, List.map_map]
      rw [hw, wordsSpec]
      congr 1
      rw [chunkWord]
      norm_num
      ring

/-- `words` on a list whose length is not 4-byte-aligned fails with the
`incomplete word` error. -/
theorem words_err : ∀ s : List Nat, s.length % 4 ≠ 0 → words s = .error .incompleteWord
  | [], h => by simp at h
  | [b0], _ => by rfl
  | [b0, b1], _ => by rfl
  | [b0, b1, b2], _ => by rfl
  | b0 :: b1 :: b2 :: b3 :: rest, h => by
      have hr : rest.length % 4 ≠ 0 := by
        simp [List.length_cons] at h ⊢
        omega
      have ih := words_err rest hr
      show (do
        let ws ← words rest
        Except.ok (((((0 * 256 + b0) * 256 + b1) * 256 + b2) * 256 + b3) :: ws)) = _
      rw [ih]
      rfl

theorem wordsSpec_length (s : List Nat) : (wordsSpec s).length = s.length / 4 := by
  simp [wordsSpec]

theorem parseSpec_nil : parseSpec [] = [] := by
  simp [parseSpec]

/-- Peeling one 64-byte chunk off the front of the specification parse. -/
theorem parseSpec_cons (s : List Nat) (h64 : 64 ≤ s.length) :
    parseSpec s = wordsSpec (s.take 64) :: parseSpec (s.drop 64) := by
  unfold parseSpec
  have hlen : s.length / 64 = (s.drop 64).length / 64 + 1 := by
    simp [List.length_drop]
    omega
  rw [hlen, List.range_succ_eq_map, List.map_cons, List.map_map]
  rw [List.cons_eq_cons]
  constructor
  · show wordsSpec ((s.drop (64 * 0)).take 64) = _
    norm_num
  · apply List.map_congr_left
    intro j _
    simp only [Function.comp_apply]
    have hd : (s.drop 64).drop (64 * j) = s.drop (64 * Nat.succ j) := by
      rw [List.drop_drop]
      congr 1
      omega
    rw [hd]

/-- Every block of the specification parse has exactly 16 words. -/
theorem parseSpec_block_length (s : List Nat) :
    ∀ b ∈ parseSpec s, b.length = 16 := by
  intro b hb
  unfold parseSpec at hb
  rcases List.mem_map.mp hb with ⟨i, hi, rfl⟩
  have hi2 := List.mem_range.mp hi
  rw [wordsSpec_length]
  simp only [List.length_take, List.length_drop]
  omega

/-- `part_000`'s `blocks` with sufficient fuel on a 64-aligned stream
produces the specification parse. -/
theorem blocksRecAux_spec : ∀ fuel s, s.length ≤ fuel → s.length % 64 = 0 →
    blocksRecAux fuel s = .ok (parseSpec s) := by
  intro fuel
  induction fuel with
  | zero =>
    intro s hle _
    have : s = [] := List.eq_nil_of_length_eq_zero (by omega)
    subst this
    simp [blocksRecAux, parseSpec]
  | succ fuel ih =>
    intro s hle hmod
    match s with
    | [] => simp [blocksRecAux, parseSpec]
    | b :: rest =>
      have hlc : (b :: rest).length = rest.length + 1 := List.length_cons b rest
      have h64 : 64 ≤ (b :: rest).length := by omega
      rw [blocksRecAux]
      simp only [blockSizeBytes]
      rw [if_neg (by omega)]
      have hw := words_spec ((b :: rest).take 64)
        (by simp only [List.length_take]; omega)
      have hdlen : ((b :: rest).drop 64).length = (b :: rest).length - 64 :=
        List.length_drop 64 _
      have hr := ih ((b :: rest).drop 64) (by omega) (by omega)
      rw [hw, hr]
      show Except.ok _ = _
      rw [parseSpec_cons _ h64]

/-- `part_000`'s `blocks` with sufficient fuel on a misaligned stream
fails with the `incomplete block` error. -/
theorem blocksRecAux_err : ∀ fuel s, s.length ≤ fuel → s.length % 64 ≠ 0 →
    blocksRecAux fuel s = .error .incompleteBlock := by
  intro fuel
  induction fuel with
  | zero =>
    intro s hle hmod
    exfalso
    have : s.length = 0 := by omega
    omega
  | succ fuel ih =>
    intro s hle hmod
    match s with
    | [] => simp at hmod
    | b :: rest =>
      have hlc : (b :: rest).length = rest.length + 1 := List.length_cons b rest
      rw [blocksRecAux]
      simp only [blockSizeBytes]
      by_cases hsmall : (b :: rest).length < 64
      · rw [if_pos hsmall]
      · rw [if_neg hsmall]
        have hw := words_spec ((b :: rest).take 64)
          (by simp only [List.length_take]; omega)
        have hdlen : ((b :: rest).drop 64).length = (b :: rest).length - 64 :=
          List.length_drop 64 _
        have hr := ih ((b :: rest).drop 64) (by omega) (by omega)
        rw [hw, hr]
        rfl

/-- `blocksRec` on a 64-aligned stream produces the specification parse. -/
theorem blocksRec_spec (s : List Nat) (h : s.length % 64 = 0) :
    blocksRec s = .ok (parseSpec s) :=
  blocksRecAux_spec s.length s le_rfl h

/-- `blocksRec` on a misaligned stream fails. -/
theorem blocksRec_err (s : List Nat) (h : s.length % 64 ≠ 0) :
    blocksRec s = .error .incompleteBlock :=
  blocksRecAux_err s.length s le_rfl h

/-- The buffered generator `blocks` of `sha1.js`, started with a partial
buffer, behaves like the specification parse of `buf ++ s` when the total
length is 64-aligned and fails otherwise. -/
theorem blocksIterAux_spec : ∀ (s buf : List Nat), buf.length < 64 →
    blocksIterAux buf s = (if (buf.length + s.length) % 64 = 0
      then .ok (parseSpec (buf ++ s)) else .error .incompleteBlock) := by
  intro s
  induction s with
  | nil =>
    intro buf hbuf
    rw [blocksIterAux]
    by_cases h0 : buf.length = 0
    · have : buf = [] := List.eq_nil_of_length_eq_zero h0
      subst this
      simp [parseSpec]
    · rw [if_pos h0, if_neg (by simp only [List.length_nil, Nat.add_zero]; omega)]
  | cons byte rest ih =>
    intro buf hbuf
    rw [blocksIterAux]
    simp only [blockSizeBytes]
    have hlb : (buf ++ [byte]).length = buf.length + 1 := by simp
    have hlc : (byte :: rest).length = rest.length + 1 := List.length_cons byte rest
    by_cases hfull : (buf ++ [byte]).length = 64
    · rw [if_pos hfull]
      have hw := words_spec (buf ++ [byte]) (by omega)
      rw [hw, ih [] (by norm_num), except_bind_ok]
      by_cases hr : rest.length % 64 = 0
      · have hci : (([] : List Nat).length + rest.length) % 64 = 0 := by
          simpa using hr
        have hco : (buf.length + (byte :: rest).length) % 64 = 0 := by omega
        rw [if_pos hci, if_pos hco, except_bind_ok]
        have hrlen : 64 ≤ ((buf ++ [byte]) ++ rest).length := by
          simp only [List.length_append, hlb]
          omega
        have hps : parseSpec (buf ++ byte :: rest) =
            wordsSpec (buf ++ [byte]) :: parseSpec rest := by
          have hassoc : buf ++ byte :: rest = (buf ++ [byte]) ++ rest := by simp
          rw [hassoc, parseSpec_cons ((buf ++ [byte]) ++ rest) hrlen,
            List.take_left' hfull, List.drop_left' hfull]
        rw [hps, List.nil_append]
      · have hci : ¬ ((([] : List Nat).length + rest.length) % 64 = 0) := by
          simpa using hr
        have hco : ¬ ((buf.length + (byte :: rest).length) % 64 = 0) := by omega
        rw [if_neg hci, if_neg hco, except_bind_err]
    · rw [if_neg hfull]
      rw [ih (buf ++ [byte]) (by omega)]
      have hl : (buf ++ [byte]) ++ rest = buf ++ byte :: rest := by simp
      have hc : ((buf ++ [byte]).length + rest.length) % 64 =
          (buf.length + (byte :: rest).length) % 64 := by
        simp only [hlb, hlc]
        omega
      rw [hl, hc]

/-- `sha1.js`'s `blocks` on a 64-aligned stream produces the
specification parse. -/
theorem blocksIter_spec (s : List Nat) (h : s.length % 64 = 0) :
    blocksIter s = .ok (parseSpec s) := by
  have := blocksIterAux_spec s [] (by norm_num)
  rw [blocksIter, this, List.nil_append, if_pos (by simpa using h)]

/-- `sha1.js`'s `blocks` on a misaligned stream fails. -/
theorem blocksIter_err (s : List Nat) (h : s.length % 64 ≠ 0) :
    blocksIter s = .error .incompleteBlock := by
  have := blocksIterAux_spec s [] (by norm_num)
  rw [blocksIter, this, if_neg (by simpa using h)]

/-- C4: on a 64-aligned byte sequence both BlockParser implementations
partition it into consecutive 64-byte chunks in order with none left
over, each chunk becoming 16 words of 4 bytes, most significant byte
first (this is precisely `parseSpec`); on a misaligned sequence they
raise the fatal `incomplete block` error instead of returning blocks,
and `words` on a group that ends with fewer than 4 bytes raises the
fatal `incomplete word` error. -/
theorem c4_block_parsing (s : List Nat) :
    (s.length % 64 = 0 →
      blocksIter s = .ok (parseSpec s) ∧ blocksRec s = .ok (parseSpec s) ∧
      (parseSpec s).length = s.length / 64 ∧ ∀ b ∈ parseSpec s, b.length = 16) ∧
    (s.length % 64 ≠ 0 →
      blocksIter s = .error .incompleteBlock ∧
      blocksRec s = .error .incompleteBlock) ∧
    (s.length % 4 ≠ 0 → words s = .error .incompleteWord) :=
  ⟨fun h => ⟨blocksIter_spec s h, blocksRec_spec s h, by simp [parseSpec],
      parseSpec_block_length s⟩,
    fun h => ⟨blocksIter_err s h, blocksRec_err s h⟩,
    words_err s⟩

/-- C4 witness: a 64-byte stream parses in both implementations, a 3-byte
stream hits the incomplete-block and incomplete-word errors. -/
theorem c4_witness :
    ((List.replicate 64 0).length % 64 = 0 ∧
      blocksIter (List.replicate 64 0) = .ok (parseSpec (List.replicate 64 0)) ∧
      blocksRec (List.replicate 64 0) = .ok (parseSpec (List.replicate 64 0))) ∧
    ((List.replicate 3 0).length % 64 ≠ 0 ∧
      blocksIter (List.replicate 3 0) = .error .incompleteBlock) ∧
    ((List.replicate 3 0).length % 4 ≠ 0 ∧
      words (List.replicate 3 0) = .error .incompleteWord) :=
  ⟨⟨by decide, ((c4_block_parsing (List.replicate 64 0)).1 (by decide)).1,
      ((c4_block_parsing (List.replicate 64 0)).1 (by decide)).2.1⟩,
    ⟨by decide, ((c4_block_parsing (List.replicate 3 0)).2.1 (by decide)).1⟩,
    ⟨by decide, (c4_block_parsing (List.replicate 3 0)).2.2 (by decide)⟩⟩

/-- Specification-side definition (from the claim's words): left rotation
of a 32-bit word by `r`, high bits wrapping into the low end. -/
def rotlSpec (r w : Nat) : Nat := ((w <<< r) % 2 ^ 32) ||| (w >>> (32 - r))

/-- Specification-side selector (from the claim's words): choice on
`[0,20)`, parity on `[20,40)`, majority on `[40,60)`, parity on
`[60,80)`; `NOT B` on 32-bit words is `B ^^^ 0xffffffff`. -/
def fSpec (t B C D : Nat) : Nat :=
  if t < 20 then (B &&& C) ||| ((B ^^^ 0xffffffff) &&& D)
  else if t < 40 then (B ^^^ C) ^^^ D
  else if t < 60 then ((B &&& C) ||| (B &&& D)) ||| (C &&& D)
  else (B ^^^ C) ^^^ D

/-- Specification-side round constants (from the claim's words). -/
def KSpec (t : Nat) : Nat :=
  if t < 20 then 0x5a827999
  else if t < 40 then 0x6ed9eba1
  else if t < 60 then 0x8f1bbcdc
  else 0xca62c1d6

/-- Specification-side message schedule (from the claim's words):
`W[t]` is the block word for `t < 16` and
`ROTL1(W[t-3] xor W[t-8] xor W[t-14] xor W[t-16])` for `16 ≤ t ≤ 79`. -/
def Wspec (block : List Nat) (t : Nat) : Nat :=
  if t < 16 then block.getD t 0
  else rotlSpec 1 (((Wspec block (t - 3) ^^^ Wspec block (t - 8)) ^^^
    Wspec block (t - 14)) ^^^ Wspec block (t - 16))
termination_by t
decreasing_by all_goals omega

/-- Specification-side round (from the claim's words):
`T = (ROTL5(a) + f(t,b,c,d) + e + K(t) + W[t]) mod 2^32`, then the
pipeline shift `e=d; d=c; c=ROTL30(b); b=a; a=T`. -/
def roundSpec (w : Nat → Nat) :
    Nat × Nat × Nat × Nat × Nat → Nat → Nat × Nat × Nat × Nat × Nat
  | (a, b, c, d, e), t =>
      ((rotlSpec 5 a + fSpec t b c d + e + KSpec t + w t) % 2 ^ 32,
        a, rotlSpec 30 b, c, d)

/-- Specification-side per-block compression (the C2 claim): build the
80-word schedule, run 80 rounds from the unpacked state, and return the
elementwise 32-bit-wrapping sum of the old state and the final pipeline. -/
def compressSpec (S : List Nat) (block : List Nat) : List Nat :=
  let w := Wspec block
  let st := (List.range 80).foldl (roundSpec w)
    (S.getD 0 0, S.getD 1 0, S.getD 2 0, S.getD 3 0, S.getD 4 0)
  [(S.getD 0 0 + st.1) % 2 ^ 32, (S.getD 1 0 + st.2.1) % 2 ^ 32,
    (S.getD 2 0 + st.2.2.1) % 2 ^ 32, (S.getD 3 0 + st.2.2.2.1) % 2 ^ 32,
    (S.getD 4 0 + st.2.2.2.2) % 2 ^ 32]

theorem isUint32_true {v : Nat} (h : v < 2 ^ 32) : isUint32 v = true := by
  simp only [isUint32, decide_eq_true_eq]
  omega

theorem checkUint32_ok {v : Nat} (h : v < 2 ^ 32) : checkUint32 v = .ok () := by
  rw [checkUint32, if_pos]
  rw [isUint32_true h]

theorem uint32_eq_mod (v : Nat) : uint32 v = v % 2 ^ 32 := by
  rw [uint32]
  norm_num

theorem uint32_of_lt {v : Nat} (h : v < 2 ^ 32) : uint32 v = v := by
  rw [uint32_eq_mod, Nat.mod_eq_of_lt h]

theorem uint32_lt (v : Nat) : uint32 v < 2 ^ 32 := by
  rw [uint32_eq_mod]
  exact Nat.mod_lt _ (by norm_num)

theorem rotlSpec_lt (r w : Nat) (hw : w < 2 ^ 32) : rotlSpec r w < 2 ^ 32 := by
  rw [rotlSpec]
  apply Nat.or_lt_two_pow
  · exact Nat.mod_lt _ (by norm_num)
  · have hsr : w >>> (32 - r) ≤ w := by
      rw [Nat.shiftRight_eq_div_pow]
      exact Nat.div_le_self _ _
    omega

/-- `ROTL` on a 32-bit value and a legal amount succeeds with the
specification rotation. -/
theorem ROTL_ok {r v : Nat} (hv : v < 2 ^ 32) (hr : r ≤ 31) :
    ROTL r v = .ok (rotlSpec r v) := by
  rw [ROTL, if_neg (by rw [isUint32_true hv]; simp), if_neg (by omega)]
  congr 1
  rw [rotlSpec, uint32_eq_mod, uint32_eq_mod]
  apply Nat.mod_eq_of_lt
  apply Nat.or_lt_two_pow (Nat.mod_lt _ (by norm_num))
  have hsr : v >>> (32 - r) ≤ v := by
    rw [Nat.shiftRight_eq_div_pow]
    exact Nat.div_le_self _ _
  omega

theorem fSpec_lt (t B C D : Nat) (hB : B < 2 ^ 32) (hC : C < 2 ^ 32)
    (hD : D < 2 ^ 32) : fSpec t B C D < 2 ^ 32 := by
  rw [fSpec]
  split_ifs
  · exact Nat.or_lt_two_pow (Nat.and_lt_two_pow _ hC) (Nat.and_lt_two_pow _ hD)
  · exact Nat.xor_lt_two_pow (Nat.xor_lt_two_pow hB hC) hD
  · exact Nat.or_lt_two_pow
      (Nat.or_lt_two_pow (Nat.and_lt_two_pow _ hC) (Nat.and_lt_two_pow _ hD))
      (Nat.and_lt_two_pow _ hD)
  · exact Nat.xor_lt_two_pow (Nat.xor_lt_two_pow hB hC) hD

theorem KSpec_lt (t : Nat) : KSpec t < 2 ^ 32 := by
  rw [KSpec]
  split_ifs <;> norm_num

/-- `f` at an in-range `t` on 32-bit words succeeds with the
specification selector. -/
theorem f_ok {t : Nat} {B C D : Nat} (ht : t ≤ 79) (hB : B < 2 ^ 32)
    (hC : C < 2 ^ 32) (hD : D < 2 ^ 32) :
    f (t : Int) B C D = .ok (fSpec t B C D) := by
  rw [f, checkUint32_ok hB, except_bind_ok, checkUint32_ok hC, except_bind_ok,
    checkUint32_ok hD, except_bind_ok]
  rw [if_neg (by omega)]
  rw [fSpec]
  by_cases h20 : t < 20
  · rw [if_pos (by omega), if_pos h20]
    rw [uint32_of_lt (Nat.or_lt_two_pow (Nat.and_lt_two_pow _ hC) (Nat.and_lt_two_pow _ hD))]
  · rw [if_neg (by omega), if_neg h20]
    by_cases h40 : t < 40
    · rw [if_pos (by omega), if_pos h40]
      rw [uint32_of_lt (Nat.xor_lt_two_pow (Nat.xor_lt_two_pow hB hC) hD)]
    · rw [if_neg (by omega), if_neg h40]
      by_cases h60 : t < 60
      · rw [if_pos (by omega), if_pos h60]
        rw [uint32_of_lt (Nat.or_lt_two_pow
          (Nat.or_lt_two_pow (Nat.and_lt_two_pow _ hC) (Nat.and_lt_two_pow _ hD))
          (Nat.and_lt_two_pow _ hD))]
      · rw [if_neg (by omega), if_neg h60]
        rw [uint32_of_lt (Nat.xor_lt_two_pow (Nat.xor_lt_two_pow hB hC) hD)]

/-- `K` at an in-range `t` succeeds with the specification constant. -/
theorem K_ok {t : Nat} (ht : t ≤ 79) : K (t : Int) = .ok (KSpec t) := by
  rw [K, if_neg (by omega), KSpec]
  by_cases h20 : t < 20
  · rw [if_pos (by omega), if_pos h20]
  · rw [if_neg (by omega), if_neg h20]
    by_cases h40 : t < 40
    · rw [if_pos (by omega), if_pos h40]
    · rw [if_neg (by omega), if_neg h40]
      by_cases h60 : t < 60
      · rw [if_pos (by omega), if_pos h60]
      · rw [if_neg (by omega), if_neg h60]

theorem getD_lt_of_all {l : List Nat} (h : ∀ x ∈ l, x < 2 ^ 32) (i : Nat) :
    l.getD i 0 < 2 ^ 32 := by
  by_cases hi : i < l.length
  · rw [List.getD_eq_getElem _ _ hi]
    exact h _ (List.getElem_mem hi)
  · rw [List.getD_eq_default _ _ (by omega)]
    norm_num

theorem getD_range_map (g : Nat → Nat) (n k : Nat) (h : k < n) :
    ((List.range n).map g).getD k 0 = g k := by
  rw [List.getD_eq_getElem _ _ (by simp [h])]
  simp

/-- Every specification schedule word of a 32-bit block is 32-bit. -/
theorem Wspec_lt (block : List Nat) (hb : ∀ x ∈ block, x < 2 ^ 32) (t : Nat) :
    Wspec block t < 2 ^ 32 := by
  induction t using Nat.strong_induction_on with
  | _ t ih =>
    rw [Wspec]
    by_cases h : t < 16
    · rw [if_pos h]
      exact getD_lt_of_all hb t
    · rw [if_neg h]
      exact rotlSpec_lt _ _ (Nat.xor_lt_two_pow (Nat.xor_lt_two_pow
        (Nat.xor_lt_two_pow (ih _ (by omega)) (ih _ (by omega))) (ih _ (by omega)))
        (ih _ (by omega)))

/-- `scheduleStep` at step `i` extends the specification schedule prefix
`W[0 .. i+16)` to `W[0 .. i+16]`. -/
theorem scheduleStep_spec (block : List Nat) (hb : ∀ x ∈ block, x < 2 ^ 32)
    (i : Nat) :
    scheduleStep ((List.range (i + 16)).map (Wspec block)) i =
      .ok ((List.range (i + 16 + 1)).map (Wspec block)) := by
  rw [scheduleStep]
  rw [getD_range_map _ _ _ (show i + 16 - 3 < i + 16 by omega),
    getD_range_map _ _ _ (show i + 16 - 8 < i + 16 by omega),
    getD_range_map _ _ _ (show i + 16 - 14 < i + 16 by omega),
    getD_range_map _ _ _ (show i + 16 - 16 < i + 16 by omega)]
  have hxor : (((Wspec block (i + 16 - 3) ^^^ Wspec block (i + 16 - 8)) ^^^
      Wspec block (i + 16 - 14)) ^^^ Wspec block (i + 16 - 16)) < 2 ^ 32 :=
    Nat.xor_lt_two_pow (Nat.xor_lt_two_pow
      (Nat.xor_lt_two_pow (Wspec_lt block hb _) (Wspec_lt block hb _))
      (Wspec_lt block hb _)) (Wspec_lt block hb _)
  rw [uint32_of_lt hxor, ROTL_ok hxor (by norm_num), except_bind_ok,
    checkUint32_ok (rotlSpec_lt _ _ hxor), except_bind_ok]
  have hfin : (List.range (i + 16 + 1)).map (Wspec block) =
      (List.range (i + 16)).map (Wspec block) ++ [Wspec block (i + 16)] := by
    rw [List.range_succ, List.map_append]
    rfl
  have hW16 : Wspec block (i + 16) = rotlSpec 1 (((Wspec block (i + 16 - 3) ^^^
      Wspec block (i + 16 - 8)) ^^^ Wspec block (i + 16 - 14)) ^^^
      Wspec block (i + 16 - 16)) := by
    rw [Wspec, if_neg (by omega)]
  rw [hfin, hW16]

/-- The message-schedule fold, after `n ≤ 64` steps, holds exactly the
first `n + 16` specification schedule words. -/
theorem buildW_foldlM (block : List Nat) (hb : ∀ x ∈ block, x < 2 ^ 32)
    (hlen : block.length = 16) :
    ∀ n, n ≤ 64 → (List.range n).foldlM scheduleStep block =
      .ok ((List.range (n + 16)).map (Wspec block)) := by
  intro n
  induction n with
  | zero =>
    intro _
    show Except.ok block = _
    congr 1
    apply List.ext_getElem
    · simp [hlen]
    · intro i h1 h2
      simp only [List.getElem_map, List.getElem_range]
      rw [Wspec, if_pos (by simp at h2; omega)]
      rw [List.getD_eq_getElem _ _ h1]
  | succ n ih =>
    intro hn
    rw [List.range_succ, List.foldlM_append, ih (by omega), except_bind_ok]
    simp only [List.foldlM_cons, List.foldlM_nil]
    rw [scheduleStep_spec block hb n, except_bind_ok]
    have he : n + 16 + 1 = n + 1 + 16 := by omega
    rw [he]
    rfl

/-- `buildW` on a block of 16 words produces the 80 specification
schedule words. -/
theorem buildW_spec (block : List Nat) (hb : ∀ x ∈ block, x < 2 ^ 32)
    (hlen : block.length = 16) :
    buildW block = .ok ((List.range 80).map (Wspec block)) := by
  have h := buildW_foldlM block hb hlen 64 le_rfl
  rw [buildW, h]

/-- All five pipeline registers are 32-bit words. -/
def boundedState (st : Nat × Nat × Nat × Nat × Nat) : Prop :=
  st.1 < 2 ^ 32 ∧ st.2.1 < 2 ^ 32 ∧ st.2.2.1 < 2 ^ 32 ∧
    st.2.2.2.1 < 2 ^ 32 ∧ st.2.2.2.2 < 2 ^ 32

theorem roundSpec_bounded (w : Nat → Nat) (st : Nat × Nat × Nat × Nat × Nat)
    (t : Nat) (h : boundedState st) : boundedState (roundSpec w st t) := by
  obtain ⟨a, b, c, d, e⟩ := st
  obtain ⟨h1, h2, h3, h4, h5⟩ := h
  exact ⟨Nat.mod_lt _ (by norm_num), h1, rotlSpec_lt _ _ h2, h3, h4⟩

/-- One implementation round on a bounded state at an in-range `t`
succeeds with the specification round. -/
theorem roundStep_spec (W : List Nat) (w : Nat → Nat) (t : Nat) (ht : t ≤ 79)
    (hW : W.getD t 0 = w t) (st : Nat × Nat × Nat × Nat × Nat)
    (hst : boundedState st) : roundStep W st t = .ok (roundSpec w st t) := by
  obtain ⟨a, b, c, d, e⟩ := st
  obtain ⟨h1, h2, h3, h4, h5⟩ := hst
  show (do
    let r ← ROTL 5 a
    let ft ← f (t : Int) b c d
    let kt ← K (t : Int)
    let T := uint32 (r + ft + e + kt + W.getD t 0)
    let c2 ← ROTL 30 b
    checkUint32 c2
    Except.ok (T, a, c2, c, d)) = _
  rw [ROTL_ok h1 (by norm_num), except_bind_ok, f_ok ht h2 h3 h4,
    except_bind_ok, K_ok ht, except_bind_ok, ROTL_ok h2 (by norm_num),
    except_bind_ok, checkUint32_ok (rotlSpec_lt 30 b h2), except_bind_ok]
  rw [hW, roundSpec, uint32_eq_mod]

/-- The 80-round fold equals the specification fold and keeps the state
bounded, for any round indices within `[0, 79]` whose schedule entries
agree with `w`. -/
theorem foldRounds_spec (W : List Nat) (w : Nat → Nat) :
    ∀ ts : List Nat, (∀ t ∈ ts, t ≤ 79) → (∀ t ∈ ts, W.getD t 0 = w t) →
    ∀ st, boundedState st →
      ts.foldlM (roundStep W) st = .ok (ts.foldl (roundSpec w) st) ∧
        boundedState (ts.foldl (roundSpec w) st) := by
  intro ts
  induction ts with
  | nil =>
    intro _ _ st hst
    exact ⟨rfl, hst⟩
  | cons t ts ih =>
    intro hle hWts st hst
    rw [List.foldlM_cons, List.foldl_cons]
    rw [roundStep_spec W w t (hle t (by simp)) (hWts t (by simp)) st hst,
      except_bind_ok]
    exact ih (fun u hu => hle u (by simp [hu])) (fun u hu => hWts u (by simp [hu]))
      _ (roundSpec_bounded w st t hst)

/-- A list of length 5 is a literal 5-element list. -/
theorem exists_five (S : List Nat) (hS : S.length = 5) :
    ∃ s0 s1 s2 s3 s4, S = [s0, s1, s2, s3, s4] := by
  rcases S with _ | ⟨s0, S⟩
  · simp at hS
  rcases S with _ | ⟨s1, S⟩
  · simp at hS
  rcases S with _ | ⟨s2, S⟩
  · simp at hS
  rcases S with _ | ⟨s3, S⟩
  · simp at hS
  rcases S with _ | ⟨s4, S⟩
  · simp at hS
  rcases S with _ | ⟨s5, S⟩
  · exact ⟨s0, s1, s2, s3, s4, rfl⟩
  · simp at hS

/-- `part_000`'s `block.forEach(checkUint32)` succeeds on 32-bit words. -/
theorem checkList_ok : ∀ l : List Nat, (∀ x ∈ l, x < 2 ^ 32) → checkList l = .ok ()
  | [], _ => rfl
  | x :: xs, h => by
      rw [checkList, checkUint32_ok (h x (by simp)), except_bind_ok]
      exact checkList_ok xs (fun y hy => h y (by simp [hy]))

/-- The shared compression core on a 5-word 32-bit state and a 16-word
32-bit block succeeds with the specification compression. -/
theorem compressRounds_spec (block S : List Nat) (hS : S.length = 5)
    (hSb : ∀ x ∈ S, x < 2 ^ 32) (hlen : block.length = 16)
    (hb : ∀ x ∈ block, x < 2 ^ 32) :
    compressRounds block S = .ok (compressSpec S block) := by
  obtain ⟨s0, s1, s2, s3, s4, rfl⟩ := exists_five S hS
  have hs0 : s0 < 2 ^ 32 := hSb _ (by simp)
  have hs1 : s1 < 2 ^ 32 := hSb _ (by simp)
  have hs2 : s2 < 2 ^ 32 := hSb _ (by simp)
  have hs3 : s3 < 2 ^ 32 := hSb _ (by simp)
  have hs4 : s4 < 2 ^ 32 := hSb _ (by simp)
  rw [compressRounds, buildW_spec block hb hlen, except_bind_ok]
  have hfold := foldRounds_spec ((List.range 80).map (Wspec block)) (Wspec block)
    (List.range 80) (fun t ht => by have := List.mem_range.mp ht; omega)
    (fun t ht => getD_range_map _ _ _ (List.mem_range.mp ht))
    (([s0, s1, s2, s3, s4].getD 0 0), ([s0, s1, s2, s3, s4].getD 1 0),
      ([s0, s1, s2, s3, s4].getD 2 0), ([s0, s1, s2, s3, s4].getD 3 0),
      ([s0, s1, s2, s3, s4].getD 4 0))
    ⟨hs0, hs1, hs2, hs3, hs4⟩
  rw [hfold.1, except_bind_ok]
  rfl

/-- C2: for every 5-word 32-bit state and every 16-word 32-bit block, the
per-block compression step of both files (`sha1.js`'s `digest`, and one
step of `part_000`'s `digest`) builds the 80-word schedule by the
claimed recurrence, runs the 80 claimed rounds, and returns the
elementwise 32-bit-wrapping sum of the old state and the final pipeline —
that is, it computes exactly `compressSpec`. -/
theorem c2_compress_spec (S block : List Nat) (hS : S.length = 5)
    (hSb : ∀ x ∈ S, x < 2 ^ 32) (hlen : block.length = 16)
    (hb : ∀ x ∈ block, x < 2 ^ 32) :
    digestBlock block S = .ok (compressSpec S block) ∧
    digestRec [block] S = .ok (compressSpec S block) := by
  constructor
  · rw [digestBlock, if_neg (by simp [blockSizeBytes, wordSizeBytes, hlen])]
    exact compressRounds_spec block S hS hSb hlen hb
  · rw [digestRec, if_neg (by simp [hlen]), checkList_ok block hb, except_bind_ok,
      compressRounds_spec block S hS hSb hlen hb, except_bind_ok]
    rfl

/-- C2 witness: the compression step applied to the initial state and the
all-zero block. -/
theorem c2_witness :
    (initHash.length = 5 ∧ (∀ x ∈ initHash, x < 2 ^ 32) ∧
      (List.replicate 16 0).length = 16 ∧
      (∀ x ∈ List.replicate 16 0, x < 2 ^ 32)) ∧
    digestBlock (List.replicate 16 0) initHash =
      .ok (compressSpec initHash (List.replicate 16 0)) ∧
    digestRec [List.replicate 16 0] initHash =
      .ok (compressSpec initHash (List.replicate 16 0)) :=
  ⟨⟨by decide, by decide, by decide, by decide⟩,
    (c2_compress_spec initHash (List.replicate 16 0) (by decide) (by decide)
      (by decide) (by decide)).1,
    (c2_compress_spec initHash (List.replicate 16 0) (by decide) (by decide)
      (by decide) (by decide)).2⟩

/-- `sha1.js`'s `sha1` on a string reduces to the digest fold over the
specification parse of the padded stream. -/
theorem sha1Iter_str_eq (s : List Nat) :
    sha1Iter (JSInput.str s) =
      ((parseSpec (padMessage s)).foldlM (fun h block => digestBlock block h)
        initHash) >>= fun hash => .ok (hash.map toHex) := by
  have h0 : sha1Iter (JSInput.str s) = (do
      let bls ← blocksIter (padMessage s)
      let hash ← bls.foldlM (fun h block => digestBlock block h) initHash
      Except.ok (hash.map toHex)) := rfl
  rw [h0, blocksIter_spec (padMessage s) (padMessage_length_mod s).1, except_bind_ok]

/-- `part_000`'s `sha1` on a string reduces to the recursive digest over
the specification parse of the padded stream. -/
theorem sha1Rec_str_eq (s : List Nat) :
    sha1Rec (JSInput.str s) =
      (digestRec (parseSpec (padMessage s)) initHash) >>=
        fun hash => .ok (hash.map toHex) := by
  have h0 : sha1Rec (JSInput.str s) =
      (if (padMessage s).length % blockSizeBytes ≠ 0
        then Except.error Err.streamSizeNotMultiple
        else do
          let bls ← blocksRec (padMessage s)
          let hash ← digestRec bls initHash
          Except.ok (hash.map toHex)) := rfl
  rw [h0,
    if_neg (by simp only [blockSizeBytes]; have := (padMessage_length_mod s).1; omega)]
  rw [blocksRec_spec (padMessage s) (padMessage_length_mod s).1, except_bind_ok]

/-- A fold in the `Except` monad succeeds and preserves an invariant as
long as each step does. -/
theorem foldlM_ok_inv {α β : Type} (g : β → α → Except Err β) (P : β → Prop) :
    ∀ (l : List α) (b : β), P b →
      (∀ b2 a, a ∈ l → P b2 → ∃ c, g b2 a = .ok c ∧ P c) →
      ∃ c, l.foldlM g b = .ok c ∧ P c := by
  intro l
  induction l with
  | nil =>
    intro b hb _
    exact ⟨b, rfl, hb⟩
  | cons a l ih =>
    intro b hb hstep
    obtain ⟨c, hc, hPc⟩ := hstep b a (by simp) hb
    obtain ⟨d, hd, hPd⟩ := ih c hPc (fun b2 a2 ha2 => hstep b2 a2 (by simp [ha2]))
    exact ⟨d, by rw [List.foldlM_cons, hc, except_bind_ok, hd], hPd⟩

/-- `scheduleStep` never fails, whatever the schedule contents. -/
theorem scheduleStep_ok (W : List Nat) (i : Nat) :
    ∃ W2, scheduleStep W i = .ok W2 := by
  rw [scheduleStep]
  rw [ROTL_ok (uint32_lt _) (by norm_num), except_bind_ok,
    checkUint32_ok (rotlSpec_lt _ _ (uint32_lt _)), except_bind_ok]
  exact ⟨_, rfl⟩

/-- `buildW` never fails, whatever the block contents. -/
theorem buildW_ok (block : List Nat) : ∃ W, buildW block = .ok W := by
  obtain ⟨W, hW, _⟩ := foldlM_ok_inv scheduleStep (fun _ => True) (List.range 64)
    block trivial (fun b2 a _ _ => by
      obtain ⟨c, hc⟩ := scheduleStep_ok b2 a
      exact ⟨c, hc, trivial⟩)
  exact ⟨W, hW⟩

/-- A round step on a bounded state succeeds and keeps the state bounded,
whatever the schedule contents. -/
theorem roundStep_ok (W : List Nat) (t : Nat) (ht : t ≤ 79)
    (st : Nat × Nat × Nat × Nat × Nat) (hst : boundedState st) :
    ∃ st2, roundStep W st t = .ok st2 ∧ boundedState st2 :=
  ⟨roundSpec (fun u => W.getD u 0) st t,
    roundStep_spec W (fun u => W.getD u 0) t ht rfl st hst,
    roundSpec_bounded _ st t hst⟩

/-- The shared compression core succeeds on any 5-word 32-bit state,
whatever the block contents, and returns a 5-word 32-bit state. -/
theorem compressRounds_ok (block S : List Nat) (hS : S.length = 5)
    (hSb : ∀ x ∈ S, x < 2 ^ 32) :
    ∃ out, compressRounds block S = .ok out ∧ out.length = 5 ∧
      ∀ x ∈ out, x < 2 ^ 32 := by
  obtain ⟨s0, s1, s2, s3, s4, rfl⟩ := exists_five S hS
  obtain ⟨W, hW⟩ := buildW_ok block
  obtain ⟨st, hst, hstb⟩ := foldlM_ok_inv (roundStep W) boundedState
    (List.range 80)
    (([s0, s1, s2, s3, s4].getD 0 0), ([s0, s1, s2, s3, s4].getD 1 0),
      ([s0, s1, s2, s3, s4].getD 2 0), ([s0, s1, s2, s3, s4].getD 3 0),
      ([s0, s1, s2, s3, s4].getD 4 0))
    ⟨hSb _ (by simp), hSb _ (by simp), hSb _ (by simp), hSb _ (by simp),
      hSb _ (by simp)⟩
    (fun b2 a ha hb2 => by
      obtain ⟨c, hc, hcb⟩ := roundStep_ok W a
        (by have := List.mem_range.mp ha; omega) b2 hb2
      exact ⟨c, hc, hcb⟩)
  refine ⟨addVec [s0, s1, s2, s3, s4] [st.1, st.2.1, st.2.2.1, st.2.2.2.1, st.2.2.2.2],
    ?_, rfl, ?_⟩
  · rw [compressRounds, hW, except_bind_ok, hst, except_bind_ok]
  · intro x hx
    have haddv : addVec [s0, s1, s2, s3, s4]
        [st.1, st.2.1, st.2.2.1, st.2.2.2.1, st.2.2.2.2] =
        [uint32 (s0 + st.1), uint32 (s1 + st.2.1), uint32 (s2 + st.2.2.1),
          uint32 (s3 + st.2.2.2.1), uint32 (s4 + st.2.2.2.2)] := rfl
    rw [haddv] at hx
    simp only [List.mem_cons, List.not_mem_nil, or_false] at hx
    rcases hx with rfl | rfl | rfl | rfl | rfl <;> exact uint32_lt _

theorem getD_lt_bound {l : List Nat} {m : Nat} (hm : 0 < m)
    (h : ∀ x ∈ l, x < m) (i : Nat) : l.getD i 0 < m := by
  by_cases hi : i < l.length
  · rw [List.getD_eq_getElem _ _ hi]
    exact h _ (List.getElem_mem hi)
  · rw [List.getD_eq_default _ _ (by omega)]
    exact hm

/-- Words parsed from byte-valued input are 32-bit. -/
theorem parseSpec_words_lt (s : List Nat) (hs : ∀ x ∈ s, x < 256) :
    ∀ b ∈ parseSpec s, ∀ x ∈ b, x < 2 ^ 32 := by
  intro b hb x hx
  unfold parseSpec at hb
  rcases List.mem_map.mp hb with ⟨i, _, rfl⟩
  unfold wordsSpec at hx
  rcases List.mem_map.mp hx with ⟨j, _, rfl⟩
  have hchunk : ∀ y ∈ (s.drop (64 * i)).take 64, y < 256 := fun y hy =>
    hs y (List.mem_of_mem_drop (List.mem_of_mem_take hy))
  rw [chunkWord]
  have h0 := getD_lt_bound (by norm_num) hchunk (4 * j)
  have h1 := getD_lt_bound (by norm_num) hchunk (4 * j + 1)
  have h2 := getD_lt_bound (by norm_num) hchunk (4 * j + 2)
  have h3 := getD_lt_bound (by norm_num) hchunk (4 * j + 3)
  have h32 : (2 : Nat) ^ 32 = 4294967296 := by norm_num
  omega

/-- The digest folds of the two implementations agree block by block on
16-word 32-bit blocks, starting from any 5-word 32-bit state. -/
theorem digest_fold_eq :
    ∀ (bls : List (List Nat)) (h : List Nat),
      (∀ b ∈ bls, b.length = 16 ∧ ∀ x ∈ b, x < 2 ^ 32) →
      h.length = 5 → (∀ x ∈ h, x < 2 ^ 32) →
      ∃ out, bls.foldlM (fun h2 block => digestBlock block h2) h = .ok out ∧
        digestRec bls h = .ok out ∧ out.length = 5 ∧ ∀ x ∈ out, x < 2 ^ 32 := by
  intro bls
  induction bls with
  | nil =>
    intro h _ hl hb
    exact ⟨h, rfl, rfl, hl, hb⟩
  | cons b bls ih =>
    intro h hbl hl hb
    obtain ⟨hb16, hbw⟩ := hbl b (by simp)
    have hcb : digestBlock b h = .ok (compressSpec h b) := by
      rw [digestBlock, if_neg (by simp [blockSizeBytes, wordSizeBytes, hb16])]
      exact compressRounds_spec b h hl hb hb16 hbw
    have hlen5 : (compressSpec h b).length = 5 := rfl
    have hcsb : ∀ x ∈ compressSpec h b, x < 2 ^ 32 := by
      intro x hx
      simp only [compressSpec, List.mem_cons, List.not_mem_nil, or_false] at hx
      rcases hx with rfl | rfl | rfl | rfl | rfl <;>
        exact Nat.mod_lt _ (by norm_num)
    obtain ⟨out, h1, h2, h3, h4⟩ := ih (compressSpec h b)
      (fun b2 hb2 => hbl b2 (by simp [hb2])) hlen5 hcsb
    refine ⟨out, ?_, ?_, h3, h4⟩
    · rw [List.foldlM_cons, hcb, except_bind_ok, h1]
    · rw [digestRec, if_neg (by simp [hb16]), checkList_ok b hbw, except_bind_ok,
        compressRounds_spec b h hl hb hb16 hbw, except_bind_ok, h2]

/-- C5 amended: on every string whose character codes are all at most 255
(i.e. every byte-valued string — the domain the spec supports) the
iterative and the recursive implementations return the same digest, and
both succeed.  (On strings with a code unit above 255 they can diverge,
see the counterexample.) -/
theorem c5_amended_equiv (s : List Nat) (hs : ∀ c ∈ s, c ≤ 255) :
    sha1Iter (JSInput.str s) = sha1Rec (JSInput.str s) ∧
      (sha1Iter (JSInput.str s)).isOk = true := by
  have hbytes : ∀ x ∈ padMessage s, x < 256 :=
    padMessage_bytes_lt s (fun x hx => by have := hs x hx; omega)
  have hblocks : ∀ b ∈ parseSpec (padMessage s), b.length = 16 ∧
      ∀ x ∈ b, x < 2 ^ 32 := fun b hb =>
    ⟨parseSpec_block_length _ b hb, parseSpec_words_lt _ hbytes b hb⟩
  obtain ⟨out, h1, h2, _, _⟩ := digest_fold_eq (parseSpec (padMessage s)) initHash
    hblocks (by decide) (by decide)
  rw [sha1Iter_str_eq, sha1Rec_str_eq, h1, h2]
  exact ⟨rfl, rfl⟩

/-- C5 witness: both implementations agree on the byte-valued string
`"abc"`. -/
theorem c5_witness :
    (∀ c ∈ ([97, 98, 99] : List Nat), c ≤ 255) ∧
    sha1Iter (JSInput.str [97, 98, 99]) = sha1Rec (JSInput.str [97, 98, 99]) :=
  ⟨by decide, (c5_amended_equiv [97, 98, 99] (by decide)).1⟩

/-- `sha1.js`'s `digest` succeeds on any 16-word block from a 5-word
32-bit state, and returns a 5-word 32-bit state. -/
theorem digestBlock_ok (block S : List Nat) (hlen : block.length = 16)
    (hS : S.length = 5) (hSb : ∀ x ∈ S, x < 2 ^ 32) :
    ∃ out, digestBlock block S = .ok out ∧ out.length = 5 ∧
      ∀ x ∈ out, x < 2 ^ 32 := by
  obtain ⟨out, h1, h2, h3⟩ := compressRounds_ok block S hS hSb
  refine ⟨out, ?_, h2, h3⟩
  rw [digestBlock, if_neg (by simp [blockSizeBytes, wordSizeBytes, hlen])]
  exact h1

/-- `sha1.js`'s `sha1` succeeds on every string input (there is no guard
anywhere on the iterative path: oversized words are silently wrapped). -/
theorem sha1Iter_str_ok (s : List Nat) :
    ∃ out, sha1Iter (JSInput.str s) = .ok out := by
  obtain ⟨h, hh, _⟩ := foldlM_ok_inv (fun h2 block => digestBlock block h2)
    (fun h2 => h2.length = 5 ∧ ∀ x ∈ h2, x < 2 ^ 32)
    (parseSpec (padMessage s)) initHash ⟨by decide, by decide⟩
    (fun b2 a ha hb2 => by
      obtain ⟨out, ho, hl, hb⟩ := digestBlock_ok a b2
        (parseSpec_block_length _ a ha) hb2.1 hb2.2
      exact ⟨out, ho, hl, hb⟩)
  exact ⟨h.map toHex, by rw [sha1Iter_str_eq, hh, except_bind_ok]⟩

/-- The only error `checkList` (the `forEach(checkUint32)` sweep) can
produce is `not uint32`. -/
theorem checkList_err (l : List Nat) (e : Err) (he : checkList l = .error e) :
    ∃ v, e = .notUint32 v := by
  induction l with
  | nil => simp [checkList] at he
  | cons x xs ih =>
    rw [checkList] at he
    by_cases hx : x < 2 ^ 32
    · rw [checkUint32_ok hx, except_bind_ok] at he
      exact ih he
    · have hfalse : isUint32 x = false := by
        simp only [isUint32, decide_eq_false_iff_not]
        omega
      rw [checkUint32, hfalse] at he
      rw [if_neg (by simp)] at he
      rw [except_bind_err] at he
      injection he with he2
      exact ⟨x, he2.symm⟩

/-- The only error `part_000`'s `digest` can produce on 16-word blocks
from a 5-word 32-bit state is `not uint32`. -/
theorem digestRec_err_notUint32 :
    ∀ (bls : List (List Nat)) (h : List Nat), h.length = 5 →
      (∀ x ∈ h, x < 2 ^ 32) → (∀ b ∈ bls, b.length = 16) →
      ∀ e, digestRec bls h = .error e → ∃ v, e = .notUint32 v := by
  intro bls
  induction bls with
  | nil =>
    intro h _ _ _ e he
    simp [digestRec] at he
  | cons b bls ih =>
    intro h hl hb hlen e he
    rw [digestRec, if_neg (by simp [hlen b (by simp)])] at he
    cases hc : checkList b with
    | ok u =>
      rw [hc, except_bind_ok] at he
      obtain ⟨out, ho, hol, hob⟩ := compressRounds_ok b h hl hb
      rw [ho, except_bind_ok] at he
      exact ih out hol hob (fun b2 hb2 => hlen b2 (by simp [hb2])) e he
    | error e2 =>
      rw [hc, except_bind_err] at he
      injection he with he2
      obtain ⟨v, rfl⟩ := checkList_err b e2 hc
      exact ⟨v, he2.symm⟩

/-- `part_000`'s `sha1` never reports the unsupported-input-type error on
a string input. -/
theorem sha1Rec_str_not_unsup (s : List Nat) (t : String) :
    sha1Rec (JSInput.str s) ≠ .error (.unsupportedInputType t) := by
  rw [sha1Rec_str_eq]
  intro hcontra
  cases hd : digestRec (parseSpec (padMessage s)) initHash with
  | ok out =>
    rw [hd, except_bind_ok] at hcontra
    simp at hcontra
  | error e =>
    rw [hd, except_bind_err] at hcontra
    injection hcontra with he
    obtain ⟨v, rfl⟩ := digestRec_err_notUint32 (parseSpec (padMessage s)) initHash
      (by decide) (by decide) (fun b hb => parseSpec_block_length _ b hb) e hd
    simp at he

/-- C8: for every non-string input (modelled by the number case) both
implementations fail immediately with the unsupported-input-type error
and produce no digest; for every string input that error is never
raised (the iterative implementation in fact always succeeds, and the
recursive one can only fail with its internal `not uint32` check). -/
theorem c8_input_type_errors :
    (∀ n : Int,
      sha1Iter (JSInput.num n) = .error (.unsupportedInputType "number") ∧
      sha1Rec (JSInput.num n) = .error (.unsupportedInputType "number")) ∧
    (∀ s : List Nat, (sha1Iter (JSInput.str s)).isOk = true ∧
      ∀ t, sha1Rec (JSInput.str s) ≠ .error (.unsupportedInputType t)) := by
  constructor
  · intro n
    exact ⟨rfl, rfl⟩
  · intro s
    obtain ⟨out, ho⟩ := sha1Iter_str_ok s
    refine ⟨by rw [ho]; rfl, fun t => sha1Rec_str_not_unsup s t⟩

/-- The computation does not fail with the invalid-round-index error. -/
def NoIRI {α : Type} (x : Except Err α) : Prop :=
  ∀ u : Int, x ≠ .error (.invalidRoundIndex u)

theorem NoIRI_ok {α : Type} (a : α) : NoIRI (Except.ok a : Except Err α) := by
  intro u h
  simp at h

theorem NoIRI_bind {α β : Type} {x : Except Err α} {g : α → Except Err β}
    (hx : NoIRI x) (hg : ∀ a, NoIRI (g a)) : NoIRI (x >>= g) := by
  cases x with
  | ok a =>
    rw [except_bind_ok]
    exact hg a
  | error e =>
    rw [except_bind_err]
    intro u h
    injection h with he
    exact hx u (by rw [he])

theorem checkUint32_noIRI (v : Nat) : NoIRI (checkUint32 v) := by
  rw [checkUint32]
  split_ifs <;> intro u h <;> simp at h

theorem ROTL_noIRI (r v : Nat) : NoIRI (ROTL r v) := by
  rw [ROTL]
  split_ifs <;> intro u h <;> simp at h

theorem f_noIRI (t : Int) (ht : 0 ≤ t ∧ t ≤ 79) (B C D : Nat) :
    NoIRI (f t B C D) := by
  rw [f]
  apply NoIRI_bind (checkUint32_noIRI B)
  intro _
  apply NoIRI_bind (checkUint32_noIRI C)
  intro _
  apply NoIRI_bind (checkUint32_noIRI D)
  intro _
  rw [if_neg (by omega)]
  split_ifs <;> intro u h <;> simp at h

theorem K_noIRI (t : Int) (ht : 0 ≤ t ∧ t ≤ 79) : NoIRI (K t) := by
  rw [K, if_neg (by omega)]
  split_ifs <;> intro u h <;> simp at h

theorem foldlM_noIRI {α β : Type} (g : β → α → Except Err β) (l : List α)
    (hg : ∀ b a, a ∈ l → NoIRI (g b a)) : ∀ b, NoIRI (l.foldlM g b) := by
  induction l with
  | nil =>
    intro b
    exact NoIRI_ok b
  | cons a l ih =>
    intro b
    rw [List.foldlM_cons]
    exact NoIRI_bind (hg b a (by simp))
      (fun c => ih (fun b2 a2 ha2 => hg b2 a2 (by simp [ha2])) c)

theorem scheduleStep_noIRI (W : List Nat) (i : Nat) :
    NoIRI (scheduleStep W i) := by
  rw [scheduleStep]
  apply NoIRI_bind (ROTL_noIRI _ _)
  intro x
  apply NoIRI_bind (checkUint32_noIRI x)
  intro _
  exact NoIRI_ok _

theorem buildW_noIRI (block : List Nat) : NoIRI (buildW block) := by
  rw [buildW]
  exact foldlM_noIRI _ _ (fun b a _ => scheduleStep_noIRI b a) block

theorem roundStep_noIRI (W : List Nat) (st : Nat × Nat × Nat × Nat × Nat)
    (t : Nat) (ht : t ≤ 79) : NoIRI (roundStep W st t) := by
  obtain ⟨a, b, c, d, e⟩ := st
  show NoIRI (do
    let r ← ROTL 5 a
    let ft ← f (t : Int) b c d
    let kt ← K (t : Int)
    let T := uint32 (r + ft + e + kt + W.getD t 0)
    let c2 ← ROTL 30 b
    checkUint32 c2
    Except.ok (T, a, c2, c, d))
  apply NoIRI_bind (ROTL_noIRI _ _)
  intro r
  apply NoIRI_bind (f_noIRI _ (by omega) b c d)
  intro ft
  apply NoIRI_bind (K_noIRI _ (by omega))
  intro kt
  apply NoIRI_bind (ROTL_noIRI _ _)
  intro c2
  apply NoIRI_bind (checkUint32_noIRI c2)
  intro _
  exact NoIRI_ok _

theorem compressRounds_noIRI (block S : List Nat) :
    NoIRI (compressRounds block S) := by
  rw [compressRounds]
  apply NoIRI_bind (buildW_noIRI block)
  intro W
  apply NoIRI_bind (foldlM_noIRI _ _ (fun b a ha =>
    roundStep_noIRI W b a (by have := List.mem_range.mp ha; omega)) _)
  intro st
  exact NoIRI_ok _

theorem digestBlock_noIRI (block S : List Nat) : NoIRI (digestBlock block S) := by
  rw [digestBlock]
  split_ifs
  · intro u h
    simp at h
  · exact compressRounds_noIRI block S

theorem checkList_noIRI : ∀ l : List Nat, NoIRI (checkList l)
  | [] => NoIRI_ok ()
  | x :: xs => by
      rw [checkList]
      apply NoIRI_bind (checkUint32_noIRI x)
      intro _
      exact checkList_noIRI xs

theorem digestRec_noIRI : ∀ (bls : List (List Nat)) (S : List Nat),
    NoIRI (digestRec bls S) := by
  intro bls
  induction bls with
  | nil =>
    intro S
    exact NoIRI_ok S
  | cons b bls ih =>
    intro S
    rw [digestRec]
    split_ifs
    · intro u h
      simp at h
    · apply NoIRI_bind (checkList_noIRI b)
      intro _
      apply NoIRI_bind (compressRounds_noIRI b S)
      intro h2
      exact ih h2

/-- C9: on 32-bit word arguments, `f` and `K` raise the
invalid-round-index error exactly when `t < 0` or `t > 79`; and no digest
computation of either implementation can ever surface that error — every
call made by the compression step uses `t` in `[0, 79]`. -/
theorem c9_invalid_round_index (t : Int) (B C D : Nat) (hB : B < 2 ^ 32)
    (hC : C < 2 ^ 32) (hD : D < 2 ^ 32) :
    ((f t B C D = .error (.invalidRoundIndex t)) ↔ (t < 0 ∨ 79 < t)) ∧
    ((K t = .error (.invalidRoundIndex t)) ↔ (t < 0 ∨ 79 < t)) ∧
    (∀ S block u, digestBlock block S ≠ .error (.invalidRoundIndex u)) ∧
    (∀ bls S u, digestRec bls S ≠ .error (.invalidRoundIndex u)) := by
  refine ⟨⟨?_, ?_⟩, ⟨?_, ?_⟩, fun S block u => digestBlock_noIRI block S u,
    fun bls S u => digestRec_noIRI bls S u⟩
  · intro h
    by_contra hc
    push_neg at hc
    have hnat : t = ((t.toNat : Nat) : Int) := by omega
    rw [hnat, f_ok (by omega) hB hC hD] at h
    simp at h
  · intro ht
    rw [f, checkUint32_ok hB, except_bind_ok, checkUint32_ok hC, except_bind_ok,
      checkUint32_ok hD, except_bind_ok, if_pos ht]
  · intro h
    by_contra hc
    push_neg at hc
    have hnat : t = ((t.toNat : Nat) : Int) := by omega
    rw [hnat, K_ok (by omega)] at h
    simp at h
  · intro ht
    rw [K, if_pos ht]

/-- C9 witness: at `t = 80` (with zero word arguments) both `f` and `K`
raise the invalid-round-index error, matching the characterisation. -/
theorem c9_witness :
    ((0 : Nat) < 2 ^ 32) ∧
    ((f 80 0 0 0 = .error (.invalidRoundIndex 80)) ↔
      ((80 : Int) < 0 ∨ 79 < (80 : Int))) ∧
    ((K 80 = .error (.invalidRoundIndex 80)) ↔
      ((80 : Int) < 0 ∨ 79 < (80 : Int))) :=
  ⟨by norm_num,
    (c9_invalid_round_index 80 0 0 0 (by norm_num) (by norm_num) (by norm_num)).1,
    (c9_invalid_round_index 80 0 0 0 (by norm_num) (by norm_num) (by norm_num)).2.1⟩
